import Mathlib

/-!
# Verification of the MachampSeq2SeqDecoder specification

Shallow embedding of machamp/models/seq2seq_decoder.py
(class MachampSeq2SeqDecoder).  Scalars of the numeric code are modelled
as exact rationals (and reals where a natural logarithm occurs); tensors
are modelled as nested lists, with the batch dimension outermost.
Numeric kernels that the control flow never inspects (log-softmax, the
attention scorer, the LSTM cell) are abstracted as function parameters,
so every theorem quantifies over them.
-/

namespace Machamp

/-! ## Scheduled-sampling input selection (_forward_loop, lines 315-326)

At each timestep the loop picks the whole-batch input tensor:

    if self.training and torch.rand(1).item() < self._scheduled_sampling_ratio:
        input_choices = last_predictions
    elif not target_tokens:
        input_choices = last_predictions
    else:
        input_choices = targets[:, timestep]

One scalar draw per call; `targets[:, timestep]` is the column of the
gold-target matrix.  `randDraw` models the value of torch.rand(1).item(),
which lies in [0,1). -/

def inputChoices (training : Bool) (randDraw ssRatio : ℚ)
    (targets : Option (List (List Nat))) (lastPredictions : List Nat)
    (timestep : Nat) : List Nat :=
  if training = true ∧ randDraw < ssRatio then
    lastPredictions
  else
    match targets with
    | none => lastPredictions
    | some tgt => tgt.map (fun row => row.getD timestep 0)

/-- C1: in training mode a single scalar draw decides the whole batch: a
draw below the scheduled-sampling ratio feeds the model's previous
predictions to every batch element, otherwise the gold column at the
current timestep is fed when gold targets exist; with no gold targets the
previous predictions are always fed; ratio 0 yields pure teacher forcing
(for any draw in [0,1)) and ratio 1 pure self-feeding in training mode. -/
theorem scheduled_sampling_input_selection
    (training : Bool) (randDraw ssRatio : ℚ)
    (targets : Option (List (List Nat))) (lastPredictions : List Nat) (t : Nat) :
    (training = true → randDraw < ssRatio →
      inputChoices training randDraw ssRatio targets lastPredictions t
        = lastPredictions)
    ∧ (∀ tgt, training = true → ¬ randDraw < ssRatio → targets = some tgt →
      inputChoices training randDraw ssRatio targets lastPredictions t
        = tgt.map (fun row => row.getD t 0))
    ∧ (targets = none →
      inputChoices training randDraw ssRatio targets lastPredictions t
        = lastPredictions)
    ∧ (∀ tgt, ssRatio = 0 → 0 ≤ randDraw → targets = some tgt →
      inputChoices training randDraw ssRatio targets lastPredictions t
        = tgt.map (fun row => row.getD t 0))
    ∧ (ssRatio = 1 → randDraw < 1 → training = true →
      inputChoices training randDraw ssRatio targets lastPredictions t
        = lastPredictions) := by
  refine ⟨?_, ?_, ?_, ?_, ?_⟩
  · intro htr hlt
    simp [inputChoices, htr, hlt]
  · intro tgt htr hge htgt
    simp [inputChoices, htr, hge, htgt]
  · intro htgt
    unfold inputChoices
    split
    · rfl
    · simp [htgt]
  · intro tgt hzero hnonneg htgt
    have hge : ¬ randDraw < ssRatio := by
      rw [hzero]; exact not_lt.mpr hnonneg
    unfold inputChoices
    split
    · rename_i hcond
      exact absurd hcond.2 hge
    · simp [htgt]
  · intro hone hlt htr
    simp [inputChoices, htr, hone, hlt]

/-- Witness for C1: concrete instantiation of the teacher-forcing branch
(training mode, draw 1/2 not below ratio 1/4, gold available). -/
theorem scheduled_sampling_input_selection_witness :
    inputChoices true (1/2) (1/4) (some [[7, 8], [9, 10]]) [5, 6] 1 = [8, 10] :=
  (scheduled_sampling_input_selection true (1/2) (1/4)
      (some [[7, 8], [9, 10]]) [5, 6] 1).2.1
    [[7, 8], [9, 10]] rfl (by norm_num) rfl

/-- C8: the loop initialises last_predictions to a batch-sized vector of
the start index; at timestep 0 every branch feeds the start marker: the
self-feeding branches feed the freshly initialised vector, and the gold
branch feeds column 0 of the targets, which by the documented target
layout (<S> w1 ... <E> <P>*) holds the start marker in every row. -/
theorem first_timestep_input_is_start_marker
    (training : Bool) (randDraw ssRatio : ℚ) (startIndex batchSize : Nat)
    (targets : Option (List (List Nat)))
    (h : ∀ tgt, targets = some tgt →
      tgt.length = batchSize ∧ ∀ row ∈ tgt, row.getD 0 0 = startIndex) :
    inputChoices training randDraw ssRatio targets
      (List.replicate batchSize startIndex) 0
      = List.replicate batchSize startIndex := by
  unfold inputChoices
  split
  · rfl
  · cases targets with
    | none => rfl
    | some tgt =>
      obtain ⟨hlen, hrow⟩ := h tgt rfl
      rw [List.eq_replicate_iff]
      constructor
      · simpa using hlen
      · intro x hx
        obtain ⟨row, hrowmem, hrowx⟩ := List.mem_map.mp hx
        rw [← hrowx]
        exact hrow row hrowmem

/-- Witness for C8: concrete instantiation in teacher-forcing mode with a
two-row gold matrix whose rows start with the start marker 2. -/
theorem first_timestep_input_is_start_marker_witness :
    inputChoices false 0 0 (some [[2, 5, 3], [2, 7, 3]])
      (List.replicate 2 2) 0 = List.replicate 2 2 :=
  first_timestep_input_is_start_marker false 0 0 2 2
    (some [[2, 5, 3], [2, 7, 3]])
    (by intro tgt htgt; cases htgt; exact ⟨rfl, by decide⟩)

/-! ## Constructor (__init__, lines 58-148)

The vocabulary collaborator is abstracted as lookup functions; the
constructor body is embedded in source order.  `target_embedding_dim` is
modelled as a required value: the source fallback
(`target_embedding_dim or self._encoder_output_dim`) dereferences
`self._encoder_output_dim` before it is assigned, so callers always
supply the value.  No statement in the constructor can signal a failure
about the marker ids: `_start_index` and `_end_index` are assigned the
literals 2 and 3 with no validation (the commented-out lookups of [CLS]
and [SEP] and the TODO show the vocabulary-derived markers the
surrounding design expects). -/

structure VocabModel where
  getTokenIndex : String → String → Nat
  getVocabSize : String → Nat
  paddingToken : String

structure DecoderConfig where
  task : String
  inputDim : Nat
  maxDecodingSteps : Nat
  lossWeight : ℚ
  hasAttention : Bool
  beamSizeArg : Option Nat
  targetEmbeddingDim : Nat
  scheduledSamplingRatio : ℚ
  useBleu : Bool
  datasetEmbedsDim : Nat
  targetDecoderLayers : Nat

structure DecoderModel where
  task : String
  lossWeight : ℚ
  targetNamespace : String
  targetDecoderLayers : Nat
  scheduledSamplingRatio : ℚ
  startIndex : Nat
  endIndex : Nat
  padIndex : Nat
  beamSize : Nat
  maxDecodingSteps : Nat
  numClasses : Nat
  encoderOutputDim : Nat
  decoderOutputDim : Nat
  decoderInputDim : Nat

def machampInit (vocab : VocabModel) (cfg : DecoderConfig) : DecoderModel :=
  let targetNamespace := "target_words"
  let startIndex := 2
  let endIndex := 3
  let padIndex := vocab.getTokenIndex vocab.paddingToken targetNamespace
  -- Python `beam_size or 1`: None and 0 both fall back to 1.
  let beamSize :=
    match cfg.beamSizeArg with
    | none => 1
    | some n => if n = 0 then 1 else n
  let numClasses := vocab.getVocabSize targetNamespace
  let encoderOutputDim := cfg.inputDim + cfg.datasetEmbedsDim
  let decoderOutputDim := encoderOutputDim
  let decoderInputDim :=
    if cfg.hasAttention then decoderOutputDim + cfg.targetEmbeddingDim
    else cfg.targetEmbeddingDim
  { task := cfg.task
    lossWeight := cfg.lossWeight
    targetNamespace := targetNamespace
    targetDecoderLayers := cfg.targetDecoderLayers
    scheduledSamplingRatio := cfg.scheduledSamplingRatio
    startIndex := startIndex
    endIndex := endIndex
    padIndex := padIndex
    beamSize := beamSize
    maxDecodingSteps := cfg.maxDecodingSteps
    numClasses := numClasses
    encoderOutputDim := encoderOutputDim
    decoderOutputDim := decoderOutputDim
    decoderInputDim := decoderInputDim }

/-- C10: for every vocabulary and configuration the constructed model has
start marker 2 and end marker 3; the vocabulary is consulted only for the
padding id (and the namespace size), never for the markers — witnessed by
the universal quantification over the lookup functions — and the pad id is
exactly the vocabulary's answer for the padding token in the target
namespace. -/
theorem start_end_markers_are_hardcoded (vocab : VocabModel) (cfg : DecoderConfig) :
    (machampInit vocab cfg).startIndex = 2
    ∧ (machampInit vocab cfg).endIndex = 3
    ∧ (machampInit vocab cfg).padIndex
        = vocab.getTokenIndex vocab.paddingToken (machampInit vocab cfg).targetNamespace
    ∧ (machampInit vocab cfg).numClasses
        = vocab.getVocabSize (machampInit vocab cfg).targetNamespace := by
  refine ⟨rfl, rfl, rfl, rfl⟩

/-- C6: evaluation of the constructor on a degenerate vocabulary that maps
every token — in particular the start and end marker tokens — to the same
id 2.  Construction completes and yields the hardcoded markers 2 and 3:
no fail-fast check on marker consistency exists anywhere in the
constructor, contrary to the specified error-handling design. -/
theorem constructor_accepts_collapsed_markers :
    (machampInit
        ⟨fun _ _ => 2, fun _ => 6, "@@PADDING@@"⟩
        ⟨"seq2seq", 4, 5, 1, false, none, 4, 0, true, 0, 1⟩).startIndex = 2
    ∧ (machampInit
        ⟨fun _ _ => 2, fun _ => 6, "@@PADDING@@"⟩
        ⟨"seq2seq", 4, 5, 1, false, none, 4, 0, true, 0, 1⟩).endIndex = 3 :=
  ⟨rfl, rfl⟩

/-! ## Forward dispatch (forward, lines 150-178)

    state = {"encoder_outputs": ..., "source_mask": ...}
    if target_tokens:
        state = self._init_decoder_state(state)
        output_dict = self._forward_loop(state, target_tokens)
    else:
        output_dict = {}
    if not self.training:
        ... beam search, BLEU ...
    return output_dict

The loop and the beam search are abstracted as call-backs so that the
dispatch is quantified over anything they could compute. -/

structure OutputDict where
  loss : Option ℚ
  predictions : Option (List (List (List Nat)))
  classLogProbabilities : Option (List (List ℚ))

def emptyOutputDict : OutputDict := ⟨none, none, none⟩

def machampForward (training : Bool) (targetTokens : Option (List (List Nat)))
    (runForwardLoop : List (List Nat) → OutputDict)
    (runBeamSearch : Unit → OutputDict) : OutputDict :=
  let outputDict :=
    match targetTokens with
    | some tgt => runForwardLoop tgt
    | none => emptyOutputDict
  if training = false then
    let predictions := runBeamSearch ()
    { outputDict with
        predictions := predictions.predictions
        classLogProbabilities := predictions.classLogProbabilities }
  else
    outputDict

/-- C9: in training mode with no gold targets, forward returns the empty
result bundle — no loss, no predictions, no log-probabilities — and the
result does not depend on the decoding call-backs, i.e. neither the
training loop nor the beam search contributes anything. -/
theorem forward_training_without_targets_is_empty
    (runForwardLoop : List (List Nat) → OutputDict)
    (runBeamSearch : Unit → OutputDict) :
    machampForward true none runForwardLoop runBeamSearch = emptyOutputDict := by
  rfl

/-! ## Output finalizer (make_output_human_readable, lines 180-213)

Per hypothesis:

    indices = list(indices)
    if self._end_index in indices:
        indices = indices[: indices.index(self._end_index)]
    predicted_tokens = [self.vocab.get_token_from_index(x, ...) for x in indices]

nested inside one loop over batch elements and one over the top-k
hypotheses of each element.  (The function receives the raw prediction
array: the dict indexing is commented out in the source.)  The vocabulary
lookup is abstracted as a function. -/

def trimAtEndIndex (endIndex : Nat) (indices : List Nat) : List Nat :=
  if endIndex ∈ indices then indices.take (indices.indexOf endIndex) else indices

def makeOutputHumanReadable (getTokenFromIndex : Nat → String) (endIndex : Nat)
    (predictedIndices : List (List (List Nat))) : List (List (List String)) :=
  predictedIndices.map (fun topKPredictions =>
    topKPredictions.map (fun indices =>
      (trimAtEndIndex endIndex indices).map getTokenFromIndex))

/-- Truncating at the first occurrence of the end index is the same as the
left-to-right scan that keeps tokens while they differ from it. -/
lemma trimAtEndIndex_eq_takeWhile (endIndex : Nat) (l : List Nat) :
    trimAtEndIndex endIndex l = l.takeWhile (fun x => x != endIndex) := by
  induction l with
  | nil => rfl
  | cons a t ih =>
    by_cases ha : a = endIndex
    · subst ha
      simp [trimAtEndIndex, List.indexOf_cons_self, List.takeWhile_cons]
    · have hne : (a != endIndex) = true := by simpa using ha
      have hidx : List.indexOf endIndex (a :: t) = List.indexOf endIndex t + 1 :=
        List.indexOf_cons_ne t ha
      by_cases hmem : endIndex ∈ t
      · have hmem2 : endIndex ∈ a :: t := List.mem_cons_of_mem a hmem
        have ihm := ih
        rw [trimAtEndIndex, if_pos hmem] at ihm
        rw [trimAtEndIndex, if_pos hmem2, hidx, List.take_succ_cons,
          List.takeWhile_cons, ihm]
        simp [hne]
      · have hmem2 : endIndex ∉ a :: t := by
          intro hc
          rcases List.mem_cons.mp hc with hc | hc
          · exact ha hc.symm
          · exact hmem hc
        rw [trimAtEndIndex, if_neg hmem2, List.takeWhile_cons]
        have ihm := ih
        rw [trimAtEndIndex, if_neg hmem] at ihm
        simp [hne, ← ihm]

/-- C5: the finalizer maps every batch element to the list of its
candidate hypotheses, each truncated at (and dropping) the first
occurrence of the end-marker id — a left-to-right scan — and translated
id-by-id through the vocabulary; in particular, with the model's end
marker 3 the predicted ids [5, 9, 3, 3, 3] finalize to the tokens of
[5, 9] only. -/
theorem finalizer_trims_at_first_end_marker :
    (∀ (getTokenFromIndex : Nat → String) (endIndex : Nat)
        (predictedIndices : List (List (List Nat))),
      makeOutputHumanReadable getTokenFromIndex endIndex predictedIndices
        = predictedIndices.map (fun topK => topK.map (fun indices =>
            (indices.takeWhile (fun x => x != endIndex)).map getTokenFromIndex)))
    ∧ (∀ getTokenFromIndex : Nat → String,
      makeOutputHumanReadable getTokenFromIndex 3 [[[5, 9, 3, 3, 3]]]
        = [[[getTokenFromIndex 5, getTokenFromIndex 9]]]) := by
  constructor
  · intro getTokenFromIndex endIndex predictedIndices
    unfold makeOutputHumanReadable
    simp [trimAtEndIndex_eq_takeWhile]
  · intro getTokenFromIndex
    simp [makeOutputHumanReadable, trimAtEndIndex_eq_takeWhile]

/-! ## Attention query and cell input (_prepare_output_projections,
lines 405-419, and _prepare_attended_input, lines 454-467)

The decoder hidden state is represented as one vector per decoder layer
(a single-layer decoder is the one-element list).  In the source the
stacked branch passes `decoder_hidden[0]` — the FIRST layer of the
(num_layers, batch, dim) state — to the attention, while the output
projection uses `decoder_hidden[-1]`; the single-layer branch passes its
only layer.  Both branches therefore read the head of the layer list
here.  The attention scorer is an abstract function from query, keys and
mask to weights. -/

abbrev AttentionFn := List ℚ → List (List ℚ) → List Bool → List ℚ

def vecScale (c : ℚ) (v : List ℚ) : List ℚ := v.map (fun x => c * x)

def vecAdd (a b : List ℚ) : List ℚ := List.zipWith (fun x y => x + y) a b

/-- Embeds allennlp.nn.util.weighted_sum: the attention-weighted sum of
the encoder output vectors. -/
def weightedSum (matrix : List (List ℚ)) (attention : List ℚ) : List ℚ :=
  match List.zipWith vecScale attention matrix with
  | [] => []
  | v :: vs => vs.foldl vecAdd v

structure DecoderState where
  encoderOutputs : List (List ℚ)
  sourceMask : List Bool
  decoderHidden : List (List ℚ)
  decoderContext : List (List ℚ)

def prepareAttendedInput (attn : AttentionFn) (decoderHiddenState : List ℚ)
    (encoderOutputs : List (List ℚ)) (encoderOutputsMask : List Bool) : List ℚ :=
  weightedSum encoderOutputs (attn decoderHiddenState encoderOutputs encoderOutputsMask)

/-- The cell-input formation of _prepare_output_projections: with
attention, the attended context (query: decoder_hidden[0], i.e. the head
of the layer list) is concatenated with the target embedding; without
attention the embedding alone. -/
def prepareDecoderInput (targetDecoderLayers : Nat) (attention : Option AttentionFn)
    (st : DecoderState) (embeddedInput : List ℚ) : List ℚ :=
  match attention with
  | some attn =>
    let attendedInput :=
      if targetDecoderLayers > 1 then
        prepareAttendedInput attn (st.decoderHidden.headD [])
          st.encoderOutputs st.sourceMask
      else
        prepareAttendedInput attn (st.decoderHidden.headD [])
          st.encoderOutputs st.sourceMask
    attendedInput ++ embeddedInput
  | none => embeddedInput

/-- The cell-input formation as claim C2 words it: the attention query is
the current TOP-layer hidden state (the last entry of the layer list). -/
def prepareDecoderInputClaimed (attention : Option AttentionFn)
    (st : DecoderState) (embeddedInput : List ℚ) : List ℚ :=
  match attention with
  | some attn =>
    prepareAttendedInput attn (st.decoderHidden.getLastD [])
      st.encoderOutputs st.sourceMask ++ embeddedInput
  | none => embeddedInput

/-- Counterexample to C2: with two decoder layers whose hidden vectors
differ ([1] below, [2] on top), one encoder position [5], and the
attention scorer that returns its query as the weight vector, the code
obtains cell input [5, 7] (query = first layer) while the claimed
top-layer query yields [10, 7]. -/
theorem attention_query_counterexample :
    prepareDecoderInput 2 (some (fun q _ _ => q))
        ⟨[[5]], [true], [[1], [2]], [[0], [0]]⟩ [7]
      ≠ prepareDecoderInputClaimed (some (fun q _ _ => q))
        ⟨[[5]], [true], [[1], [2]], [[0], [0]]⟩ [7] := by
  have h1 : prepareDecoderInput 2 (some (fun q _ _ => q))
      ⟨[[5]], [true], [[1], [2]], [[0], [0]]⟩ [7] = [(5 : ℚ), 7] := by
    norm_num [prepareDecoderInput, prepareAttendedInput, weightedSum, vecScale]
  have h2 : prepareDecoderInputClaimed (some (fun q _ _ => q))
      ⟨[[5]], [true], [[1], [2]], [[0], [0]]⟩ [7] = [(10 : ℚ), 7] := by
    norm_num [prepareDecoderInputClaimed, prepareAttendedInput, weightedSum, vecScale]
  rw [h1, h2]
  intro h
  have h5 : (5 : ℚ) = 10 := by
    injection h
  norm_num at h5

/-- C2 amended: for every step with attention configured — stacked or not
— the attended context is computed with the FIRST-layer hidden state
(decoder_hidden[0]; bottom layer of the stack) as the query against the
encoder outputs and source mask, and concatenated with the target
embedding to form the cell input; without attention the embedding alone
is the cell input. -/
theorem attention_uses_first_layer_query
    (targetDecoderLayers : Nat) (hstacked : targetDecoderLayers > 1)
    (attn : AttentionFn) (st : DecoderState) (embeddedInput : List ℚ) :
    prepareDecoderInput targetDecoderLayers (some attn) st embeddedInput
      = weightedSum st.encoderOutputs
          (attn (st.decoderHidden.headD []) st.encoderOutputs st.sourceMask)
        ++ embeddedInput
    ∧ prepareDecoderInput targetDecoderLayers none st embeddedInput
      = embeddedInput := by
  constructor
  · simp [prepareDecoderInput, prepareAttendedInput, hstacked]
  · rfl

/-- Witness for the amended C2 at the concrete counterexample input: the
first-layer hidden vector [1] is the query. -/
theorem attention_uses_first_layer_query_witness :
    prepareDecoderInput 2 (some (fun q _ _ => q))
        ⟨[[5]], [true], [[1], [2]], [[0], [0]]⟩ [7]
      = weightedSum [[5]] (([[1], [2]] : List (List ℚ)).headD []) ++ [7] :=
  (attention_uses_first_layer_query 2 (by norm_num) (fun q _ _ => q)
    ⟨[[5]], [true], [[1], [2]], [[0], [0]]⟩ [7]).1

/-! ## Loss computation (_get_loss, lines 469-501)

_get_loss drops position 0 of targets and mask and delegates to
allennlp.nn.util.sequence_cross_entropy_with_logits, which _get_loss
calls with its default average="batch": per-position negative log
likelihood times the (float-cast) weights, summed per sequence and
divided by that sequence's weight sum plus a tiny epsilon, then summed
over the batch and divided by the number of sequences with positive
weight sum plus the same epsilon.  The log-softmax kernel is abstracted
as the function parameter f (per step it maps the logit row to the
log-probability row); eps models tiny_value_of_dtype (1e-13 for
float32). -/

def boolToQ (b : Bool) : ℚ := if b then 1 else 0

/-- Embeds allennlp.nn.util.sequence_cross_entropy_with_logits with
average="batch" (the default used by _get_loss). -/
def sequenceCrossEntropyWithLogits (f : List ℚ → List ℚ) (eps : ℚ)
    (logits : List (List (List ℚ))) (targets : List (List Nat))
    (weights : List (List ℚ)) : ℚ :=
  let negativeLogLikelihood :=
    List.zipWith (fun rowLogits rowTargets =>
        List.zipWith (fun stepLogits t => -((f stepLogits).getD t 0))
          rowLogits rowTargets)
      logits targets
  let weighted :=
    List.zipWith (fun rowNll rowW => List.zipWith (fun a w => a * w) rowNll rowW)
      negativeLogLikelihood weights
  let weightsBatchSum := weights.map List.sum
  let perBatchLoss :=
    List.zipWith (fun s w => s / (w + eps)) (weighted.map List.sum) weightsBatchSum
  let numNonEmptySequences :=
    (weightsBatchSum.countP (fun w => decide (0 < w)) : ℚ) + eps
  perBatchLoss.sum / numNonEmptySequences

/-- Embeds MachampSeq2SeqDecoder._get_loss: shift targets and mask left
by one (drop the start-marker position), then sequence cross-entropy. -/
def getLoss (f : List ℚ → List ℚ) (eps : ℚ)
    (logits : List (List (List ℚ))) (targets : List (List Nat))
    (targetMask : List (List Bool)) : ℚ :=
  let relevantTargets := targets.map List.tail
  let relevantMask := targetMask.map List.tail
  sequenceCrossEntropyWithLogits f eps logits relevantTargets
    (relevantMask.map (fun row => row.map boolToQ))

/-- Loss of one sequence: masked NLL summed over positions, divided by
the sequence's own unmasked count (plus epsilon). -/
def perSequenceCE (f : List ℚ → List ℚ) (eps : ℚ)
    (rowLogits : List (List ℚ)) (rowTargets : List Nat)
    (rowWeights : List ℚ) : ℚ :=
  (List.zipWith (fun a w => a * w)
      (List.zipWith (fun stepLogits t => -((f stepLogits).getD t 0))
        rowLogits rowTargets)
      rowWeights).sum
    / (rowWeights.sum + eps)

/-- The loss as claim C3 words it: cross-entropy masked by the shifted
mask and averaged over all unmasked positions of the whole batch
(batch-and-position normalized, not per-sequence). -/
def getLossClaimVersion (f : List ℚ → List ℚ)
    (logits : List (List (List ℚ))) (targets : List (List Nat))
    (targetMask : List (List Bool)) : ℚ :=
  let relevantTargets := targets.map List.tail
  let relevantWeights :=
    (targetMask.map List.tail).map (fun row => row.map boolToQ)
  let negativeLogLikelihood :=
    List.zipWith (fun rowLogits rowTargets =>
        List.zipWith (fun stepLogits t => -((f stepLogits).getD t 0))
          rowLogits rowTargets)
      logits relevantTargets
  let weighted :=
    List.zipWith (fun rowNll rowW => List.zipWith (fun a w => a * w) rowNll rowW)
      negativeLogLikelihood relevantWeights
  (weighted.map List.sum).sum / (relevantWeights.map List.sum).sum

/-- C3 amended: the loss the code computes — shifted, masked, then
per-sequence normalized and averaged over the sequences with at least one
unmasked position. -/
def getLossAmendedSpec (f : List ℚ → List ℚ) (eps : ℚ)
    (logits : List (List (List ℚ))) (targets : List (List Nat))
    (targetMask : List (List Bool)) : ℚ :=
  let perSeq :=
    List.zipWith (fun rowLogits tm =>
        perSequenceCE f eps rowLogits tm.1.tail (tm.2.tail.map boolToQ))
      logits (targets.zip targetMask)
  let numNonEmptySequences :=
    ((targetMask.map (fun row => (row.tail.map boolToQ).sum)).countP
        (fun w => decide (0 < w)) : ℚ) + eps
  perSeq.sum / numNonEmptySequences

lemma perBatchLoss_eq (f : List ℚ → List ℚ) (eps : ℚ) :
    ∀ (L : List (List (List ℚ))) (T : List (List Nat)) (M : List (List Bool)),
    List.zipWith (fun s w => s / (w + eps))
      ((List.zipWith (fun rowNll rowW => List.zipWith (fun a w => a * w) rowNll rowW)
          (List.zipWith (fun rowLogits rowTargets =>
              List.zipWith (fun stepLogits t => -((f stepLogits).getD t 0))
                rowLogits rowTargets)
            L (T.map List.tail))
          ((M.map List.tail).map (fun row => row.map boolToQ))).map List.sum)
      (((M.map List.tail).map (fun row => row.map boolToQ)).map List.sum)
    = List.zipWith (fun rowLogits tm =>
        perSequenceCE f eps rowLogits tm.1.tail (tm.2.tail.map boolToQ))
      L (T.zip M) := by
  intro L
  induction L with
  | nil => intro T M; rfl
  | cons l ls ih =>
    intro T M
    cases T with
    | nil => rfl
    | cons t ts =>
      cases M with
      | nil => rfl
      | cons m ms =>
        simp only [List.map_cons, List.zipWith_cons_cons, List.zip_cons_cons,
          List.cons.injEq]
        exact ⟨rfl, ih ts ms⟩

/-- C3 amended: the loss drops position 0 of both targets and mask, so
the logit at step t is scored against the target at position t+1; the
masked cross-entropy is then normalized per sequence (each sequence's
summed masked NLL divided by its own unmasked count plus epsilon) and
averaged over the sequences with a positive unmasked count plus epsilon —
per-sequence normalization, not batch-and-position normalization. -/
theorem loss_shifts_and_normalizes_per_sequence (f : List ℚ → List ℚ) (eps : ℚ)
    (logits : List (List (List ℚ))) (targets : List (List Nat))
    (targetMask : List (List Bool)) :
    getLoss f eps logits targets targetMask
      = getLossAmendedSpec f eps logits targets targetMask := by
  simp only [getLoss, sequenceCrossEntropyWithLogits, getLossAmendedSpec]
  rw [perBatchLoss_eq]
  congr 2
  simp [List.map_map, Function.comp_def]

/-! Concrete inputs exercising the loss: a batch of two sequences over a
two-word vocabulary; three target positions (two decoding steps), with the
first sequence masked after one step.  With the identity as the abstract
log-softmax, each step's NLL at target id 1 is 1 and at target id 0 is
0. -/

def exLogits : List (List (List ℚ)) := [[[0, -1], [0, -1]], [[0, -1], [0, -1]]]

def exTargets : List (List Nat) := [[9, 0, 0], [9, 1, 1]]

def exMask : List (List Bool) := [[true, true, false], [true, true, true]]

/-- Counterexample to C3: on `exLogits`/`exTargets`/`exMask` (with the
library's float32 epsilon 1e-13) the code's per-sequence-normalized loss
is 2/(2+eps)^2 — just under 1/2 — while the claimed average over all
unmasked positions is 2/3. -/
theorem loss_normalization_counterexample :
    getLoss (fun l => l) (1 / 10000000000000) exLogits exTargets exMask
      ≠ getLossClaimVersion (fun l => l) exLogits exTargets exMask := by
  norm_num [getLoss, sequenceCrossEntropyWithLogits, getLossClaimVersion,
    exLogits, exTargets, exMask, boolToQ, List.countP_cons]

/-! ## Loss normalization in the result bundle (_forward_loop, lines 350-358)

    loss = self._get_loss(logits, targets, target_mask) * self.loss_weight
    output_dict["loss"] = loss
    output_dict['loss'] /= torch.log(torch.tensor(logits.shape[-1]))

The divisor is the natural logarithm of the logits' vocabulary dimension
(the target vocabulary size). -/

def logitsLastDim (logits : List (List (List ℚ))) : Nat :=
  ((logits.headD []).headD []).length

noncomputable def forwardLoopLoss (f : List ℚ → List ℚ) (eps : ℚ) (lossWeight : ℝ)
    (logits : List (List (List ℚ))) (targets : List (List Nat))
    (targetMask : List (List Bool)) : ℝ :=
  ((getLoss f eps logits targets targetMask : ℚ) : ℝ) * lossWeight
    / Real.log ((logitsLastDim logits : ℕ) : ℝ)

/-- The bundled loss as claim C4 words it: the §4.6 loss divided by the
natural logarithm of the vocabulary size, with no further factor. -/
noncomputable def forwardLoopLossClaimed (f : List ℚ → List ℚ) (eps : ℚ)
    (logits : List (List (List ℚ))) (targets : List (List Nat))
    (targetMask : List (List Bool)) : ℝ :=
  ((getLoss f eps logits targets targetMask : ℚ) : ℝ)
    / Real.log ((logitsLastDim logits : ℕ) : ℝ)

/-- C4 amended: the §4.6 loss divided by the natural logarithm of the
vocabulary size and scaled by the configured loss weight. -/
noncomputable def forwardLoopLossAmendedSpec (f : List ℚ → List ℚ) (eps : ℚ)
    (lossWeight : ℝ) (logits : List (List (List ℚ))) (targets : List (List Nat))
    (targetMask : List (List Bool)) : ℝ :=
  (((getLoss f eps logits targets targetMask : ℚ) : ℝ)
      / Real.log ((logitsLastDim logits : ℕ) : ℝ)) * lossWeight

/-- Counterexample to C4: with loss_weight = 2 on the concrete batch
(§4.6 loss 1/2, vocabulary size 2) the bundled loss is 1/log 2, not the
claimed (1/2)/log 2. -/
theorem loss_weight_scaling_counterexample :
    forwardLoopLoss (fun l => l) 0 2 exLogits exTargets exMask
      ≠ forwardLoopLossClaimed (fun l => l) 0 exLogits exTargets exMask := by
  have hq : getLoss (fun l => l) 0 exLogits exTargets exMask = 1 / 2 := by
    norm_num [getLoss, sequenceCrossEntropyWithLogits, exLogits, exTargets,
      exMask, boolToQ, List.countP_cons]
  have hdim : logitsLastDim exLogits = 2 := rfl
  have hlog : Real.log 2 ≠ 0 := ne_of_gt (Real.log_pos (by norm_num))
  simp only [forwardLoopLoss, forwardLoopLossClaimed, hq, hdim]
  push_cast
  intro h
  rw [div_eq_div_iff hlog hlog] at h
  norm_num at h

/-- C4 amended: for every training-loop invocation with gold targets the
bundled loss equals the §4.6 loss divided by the natural logarithm of the
target vocabulary size and multiplied by the configured loss weight; when
the loss weight is its default 1 this is exactly the claimed value. -/
theorem bundled_loss_is_weighted_normalized (f : List ℚ → List ℚ) (eps : ℚ)
    (lossWeight : ℝ) (logits : List (List (List ℚ))) (targets : List (List Nat))
    (targetMask : List (List Bool)) :
    forwardLoopLoss f eps lossWeight logits targets targetMask
      = forwardLoopLossAmendedSpec f eps lossWeight logits targets targetMask
    ∧ (lossWeight = 1 →
      forwardLoopLoss f eps lossWeight logits targets targetMask
        = forwardLoopLossClaimed f eps logits targets targetMask) := by
  constructor
  · simp only [forwardLoopLoss, forwardLoopLossAmendedSpec]
    rw [mul_div_right_comm]
  · intro h1
    simp only [forwardLoopLoss, forwardLoopLossClaimed, h1, mul_one]

/-- Witness for C4: with the default loss weight 1 the bundled loss on
the concrete batch is exactly the claimed normalized value. -/
theorem bundled_loss_is_weighted_normalized_witness :
    forwardLoopLoss (fun l => l) 0 1 exLogits exTargets exMask
      = forwardLoopLossClaimed (fun l => l) 0 exLogits exTargets exMask :=
  (bundled_loss_is_weighted_normalized (fun l => l) 0 1 exLogits exTargets
    exMask).2 rfl

/-! ## Greedy loop (_forward_loop, lines 279-348) and beam search engine

The decoder state and the step computation are abstracted: `takeStep`
models take_step (lines 215-251), mapping the previous token id and the
state to the per-class scores and the updated state.  Scores live in an
arbitrary linearly ordered additive group (the float log-probabilities of
the code); concrete instances below use ℤ.

The source's greedy branch picks `torch.max(F.softmax(projections), 1)`
while take_step hands the beam search `F.log_softmax(projections)`; both
softmax and log_softmax are strictly monotone in each logit row, so both
argmaxes coincide with the first-index argmax of the scores
(`argmaxFirst_map_strictMono` below records this), which is what the
greedy embedding uses.

The beam engine itself (allennlp.nn.beam_search.BeamSearch) is not under
src/; it is modelled from the spec, §4.7: expansion of live hypotheses
through the step function, frozen continuation (the end marker with zero
added) for finished hypotheses, stable top-beam_size pruning by cumulative
log-probability, and termination when the retained hypotheses are all
terminated or the step budget is exhausted. -/

section BeamGreedy

variable {S : Type} {σ : Type}

/-- First maximum of a list together with its index — the tie-breaking of
torch.max and of a stable descending sort: the earliest maximal element
wins. -/
def maxWithIdx [LinearOrder S] : List S → Option (S × Nat)
  | [] => none
  | x :: xs =>
    match maxWithIdx xs with
    | none => some (x, 0)
    | some (m, j) => if x < m then some (m, j + 1) else some (x, 0)

def argmaxFirst [LinearOrder S] (l : List S) : Nat :=
  ((maxWithIdx l).map Prod.snd).getD 0

lemma maxWithIdx_map_strictMono {T : Type} [LinearOrder S] [LinearOrder T]
    (f : S → T) (hf : StrictMono f) :
    ∀ l : List S, maxWithIdx (l.map f) = (maxWithIdx l).map (fun p => (f p.1, p.2))
  | [] => rfl
  | x :: xs => by
    rw [List.map_cons, maxWithIdx, maxWithIdx_map_strictMono f hf xs]
    cases h : maxWithIdx xs with
    | none => simp [maxWithIdx, h]
    | some p =>
      simp only [maxWithIdx, h, Option.map_some]
      by_cases hlt : x < p.1
      · simp [hlt, hf hlt]
      · have hle : f p.1 ≤ f x := hf.le_iff_le.mpr (not_lt.mp hlt)
        simp [hlt, not_lt.mpr hle]

/-- Applying a strictly monotone map (such as softmax or log-softmax to a
logit row) does not change the first-index argmax: the greedy branch's
argmax of softmaxed projections and the beam engine's scores agree. -/
lemma argmaxFirst_map_strictMono {T : Type} [LinearOrder S] [LinearOrder T]
    (f : S → T) (hf : StrictMono f) (l : List S) :
    argmaxFirst (l.map f) = argmaxFirst l := by
  rw [argmaxFirst, argmaxFirst, maxWithIdx_map_strictMono f hf]
  cases maxWithIdx l <;> rfl

/-- Embeds the prediction recursion of _forward_loop with
target_tokens = None: at each of the remaining timesteps feed the previous
prediction, compute the step scores, take the first-index argmax as the
new prediction and collect it. -/
def forwardLoopGreedy [LinearOrder S] (takeStep : Nat → σ → List S × σ) :
    Nat → Nat → σ → List Nat
  | _, 0, _ => []
  | lastPredictions, n + 1, st =>
    let r := takeStep lastPredictions st
    let predictedClasses := argmaxFirst r.1
    predictedClasses :: forwardLoopGreedy takeStep predictedClasses n r.2

/-- The greedy decode of _forward_loop without gold targets: start from
the start marker and run max_decoding_steps steps. -/
def forwardLoopPredictions [LinearOrder S] (takeStep : Nat → σ → List S × σ)
    (startIndex maxDecodingSteps : Nat) (st : σ) : List Nat :=
  forwardLoopGreedy takeStep startIndex maxDecodingSteps st

/-- One beam-search hypothesis: token history, cumulative log-probability,
and its copy of the decoder state. -/
structure Hyp (S : Type) (σ : Type) where
  tokens : List Nat
  logp : S
  state : σ

def hypFinished (endIndex : Nat) (h : Hyp S σ) : Bool :=
  decide (endIndex ∈ h.tokens)

def hypLastToken (startIndex : Nat) (h : Hyp S σ) : Nat :=
  h.tokens.getLastD startIndex

/-- Modelled from the spec, §4.7 (the beam engine is not under src/):
candidates of one live hypothesis — one per vocabulary id in enumeration
order, each with the parent's cumulative log-probability plus the class
score and the parent's updated state. -/
def expandCands [AddCommGroup S] (tokens : List Nat) (base : S) (st : σ) :
    Nat → List S → List (Hyp S σ)
  | _, [] => []
  | i, lp :: rest =>
    ⟨tokens ++ [i], base + lp, st⟩ :: expandCands tokens base st (i + 1) rest

/-- Modelled from the spec, §4.7: a finished hypothesis is frozen — its
only continuation is the end marker again with zero log-probability
added; a live hypothesis expands through the step function. -/
def expandHyp [AddCommGroup S] (takeStep : Nat → σ → List S × σ)
    (startIndex endIndex : Nat) (h : Hyp S σ) : List (Hyp S σ) :=
  if hypFinished endIndex h then
    [⟨h.tokens ++ [endIndex], h.logp, h.state⟩]
  else
    let r := takeStep (hypLastToken startIndex h) h.state
    expandCands h.tokens h.logp r.2 0 r.1

/-- Modelled from the spec, §4.7 (Pruning): extract the hypothesis with
the greatest cumulative log-probability, ties keeping the earliest
candidate (stable order), together with the remaining candidates. -/
def extractBest [LinearOrder S] : List (Hyp S σ) → Option (Hyp S σ × List (Hyp S σ))
  | [] => none
  | h :: t =>
    match extractBest t with
    | none => some (h, [])
    | some (b, rest) => if h.logp < b.logp then some (b, h :: rest) else some (h, t)

/-- Modelled from the spec, §4.7 (Pruning): keep the top beam_size
candidates by cumulative log-probability, stably. -/
def selectTop [LinearOrder S] : Nat → List (Hyp S σ) → List (Hyp S σ)
  | 0, _ => []
  | b + 1, hs =>
    match extractBest hs with
    | none => []
    | some (best, rest) => best :: selectTop b rest

/-- Modelled from the spec, §4.7 (Expansion and Pruning): expand every
hypothesis and keep the top beam_size of the at most
beam_size × vocab_size candidates. -/
def beamStep [LinearOrder S] [AddCommGroup S] (takeStep : Nat → σ → List S × σ)
    (startIndex endIndex beamSize : Nat) (hs : List (Hyp S σ)) : List (Hyp S σ) :=
  selectTop beamSize (hs.flatMap (expandHyp takeStep startIndex endIndex))

def allFinished (endIndex : Nat) (hs : List (Hyp S σ)) : Bool :=
  hs.all (hypFinished endIndex)

/-- Modelled from the spec, §4.7 (Termination): iterate until the
retained hypotheses are all terminated or the step budget is
exhausted. -/
def beamSearchRun [LinearOrder S] [AddCommGroup S] (takeStep : Nat → σ → List S × σ)
    (startIndex endIndex beamSize : Nat) : Nat → List (Hyp S σ) → List (Hyp S σ)
  | 0, hs => hs
  | n + 1, hs =>
    if allFinished endIndex hs then hs
    else
      beamSearchRun takeStep startIndex endIndex beamSize n
        (beamStep takeStep startIndex endIndex beamSize hs)

/-- Modelled from the spec, §4.7 (Initial state): one hypothesis with
empty history and log-probability zero; the start marker is the pending
input of a hypothesis with no history yet (hypLastToken). -/
def beamSearch [LinearOrder S] [AddCommGroup S] (takeStep : Nat → σ → List S × σ)
    (startIndex endIndex beamSize maxDecodingSteps : Nat) (st : σ) :
    List (Hyp S σ) :=
  beamSearchRun takeStep startIndex endIndex beamSize maxDecodingSteps
    [⟨[], 0, st⟩]

/-- A greedy output truncated just past its first end marker: the prefix
of tokens differing from the end marker, then the end marker itself when
one occurs. -/
def truncThroughEnd (endIndex : Nat) (l : List Nat) : List Nat :=
  l.takeWhile (fun x => x != endIndex) ++ (if endIndex ∈ l then [endIndex] else [])

lemma maxWithIdx_of_ne_nil [LinearOrder S] {l : List S} (h : l ≠ []) :
    ∃ m j, maxWithIdx l = some (m, j) := by
  cases l with
  | nil => exact absurd rfl h
  | cons x xs =>
    rw [maxWithIdx]
    cases hx : maxWithIdx xs with
    | none => exact ⟨x, 0, rfl⟩
    | some p =>
      by_cases hlt : x < p.1
      · exact ⟨p.1, p.2 + 1, by simp [hlt]⟩
      · exact ⟨x, 0, by simp [hlt]⟩

lemma maxWithIdx_eq_none [LinearOrder S] {l : List S}
    (h : maxWithIdx l = none) : l = [] := by
  cases l with
  | nil => rfl
  | cons x xs =>
    exfalso
    obtain ⟨m, j, hm⟩ := maxWithIdx_of_ne_nil (l := x :: xs) (by simp)
    rw [hm] at h
    exact Option.noConfusion h

/-- The stable best of the candidate list of one live hypothesis is the
candidate at the first-index argmax of the class scores, carrying the
parent log-probability plus the maximal score. -/
lemma extractBest_expandCands [LinearOrderedAddCommGroup S]
    (tokens : List Nat) (base : S) (st : σ) :
    ∀ (lps : List S) (i : Nat) (m : S) (j : Nat),
      maxWithIdx lps = some (m, j) →
      ∃ rest, extractBest (expandCands tokens base st i lps)
        = some (⟨tokens ++ [i + j], base + m, st⟩, rest) := by
  intro lps
  induction lps with
  | nil => intro i m j h; exact Option.noConfusion h
  | cons lp rest ih =>
    intro i m j h
    rw [maxWithIdx] at h
    cases hx : maxWithIdx rest with
    | none =>
      have hnil : rest = [] := maxWithIdx_eq_none hx
      subst hnil
      rw [hx] at h
      have h2 : some (lp, 0) = some (m, j) := h
      obtain ⟨hm, hj⟩ : lp = m ∧ 0 = j := by simpa using h2
      refine ⟨[], ?_⟩
      simp [expandCands, extractBest, ← hm, ← hj]
    | some p =>
      obtain ⟨pm, pj⟩ := p
      rw [hx] at h
      have h2 : (if lp < pm then some (pm, pj + 1) else some (lp, 0))
          = some (m, j) := h
      by_cases hlt : lp < pm
      · rw [if_pos hlt] at h2
        obtain ⟨hm, hj⟩ : pm = m ∧ pj + 1 = j := by simpa using h2
        obtain ⟨rest₁, hbest⟩ := ih (i + 1) pm pj hx
        refine ⟨⟨tokens ++ [i], base + lp, st⟩ :: rest₁, ?_⟩
        rw [expandCands, extractBest]
        have hlt2 : base + lp < base + pm := add_lt_add_left hlt base
        have hidx : i + 1 + pj = i + j := by omega
        rw [hidx, hm] at hbest
        rw [hm] at hlt2
        simp [hbest, hlt2]
      · rw [if_neg hlt] at h2
        obtain ⟨hm, hj⟩ : lp = m ∧ 0 = j := by simpa using h2
        obtain ⟨rest₁, hbest⟩ := ih (i + 1) pm pj hx
        refine ⟨expandCands tokens base st (i + 1) rest, ?_⟩
        rw [expandCands, extractBest]
        have hge : ¬ base + lp < base + pm := by
          intro hc
          exact hlt (lt_of_add_lt_add_left hc)
        simp [hbest, hge, ← hm, ← hj]

lemma beamSearchRun_of_allFinished [LinearOrderedAddCommGroup S]
    (takeStep : Nat → σ → List S × σ) (startIndex endIndex beamSize : Nat)
    (n : Nat) (hs : List (Hyp S σ)) (h : allFinished endIndex hs = true) :
    beamSearchRun takeStep startIndex endIndex beamSize n hs = hs := by
  cases n with
  | zero => rfl
  | succ n => rw [beamSearchRun, if_pos h]

/-- Single-beam search from one live hypothesis follows the greedy argmax
path step by step, stopping just past the first emission of the end
marker. -/
lemma beamRun_one_eq_greedy [LinearOrderedAddCommGroup S]
    (takeStep : Nat → σ → List S × σ) (startIndex endIndex : Nat)
    (hne : ∀ tok st, (takeStep tok st).1 ≠ []) :
    ∀ (n : Nat) (tokens : List Nat) (logp : S) (st : σ),
      endIndex ∉ tokens →
      (beamSearchRun takeStep startIndex endIndex 1 n [⟨tokens, logp, st⟩]).map
          (fun h => h.tokens)
        = [tokens ++ truncThroughEnd endIndex
            (forwardLoopGreedy takeStep (tokens.getLastD startIndex) n st)] := by
  intro n
  induction n with
  | zero =>
    intro tokens logp st _
    simp [beamSearchRun, forwardLoopGreedy, truncThroughEnd]
  | succ n ih =>
    intro tokens logp st hnotmem
    have hlive : hypFinished endIndex (⟨tokens, logp, st⟩ : Hyp S σ) = false := by
      simp [hypFinished, hnotmem]
    have hall : allFinished endIndex [(⟨tokens, logp, st⟩ : Hyp S σ)] = false := by
      simp [allFinished, hlive]
    rw [beamSearchRun, hall]
    simp only [Bool.false_eq_true, if_false]
    obtain ⟨m, j, hmax⟩ :=
      maxWithIdx_of_ne_nil (hne (tokens.getLastD startIndex) st)
    have hstep : beamStep takeStep startIndex endIndex 1 [⟨tokens, logp, st⟩]
        = [⟨tokens ++ [j], logp + m,
            (takeStep (tokens.getLastD startIndex) st).2⟩] := by
      rw [beamStep]
      have hexp : List.flatMap [(⟨tokens, logp, st⟩ : Hyp S σ)]
            (expandHyp takeStep startIndex endIndex)
          = expandCands tokens logp (takeStep (tokens.getLastD startIndex) st).2 0
              (takeStep (tokens.getLastD startIndex) st).1 := by
        simp [expandHyp, hlive, hypLastToken]
      rw [hexp]
      obtain ⟨rest, hbest⟩ := extractBest_expandCands tokens logp
        (takeStep (tokens.getLastD startIndex) st).2
        (takeStep (tokens.getLastD startIndex) st).1 0 m j hmax
      rw [selectTop, hbest]
      simp [selectTop]
    rw [hstep]
    have hpred : argmaxFirst (takeStep (tokens.getLastD startIndex) st).1 = j := by
      rw [argmaxFirst, hmax]
      rfl
    have hgreedy : forwardLoopGreedy takeStep (tokens.getLastD startIndex) (n + 1) st
        = j :: forwardLoopGreedy takeStep j n
            (takeStep (tokens.getLastD startIndex) st).2 := by
      rw [← hpred]
      rfl
    rw [hgreedy]
    by_cases hend : j = endIndex
    · have hfin : allFinished endIndex
          [(⟨tokens ++ [j], logp + m,
              (takeStep (tokens.getLastD startIndex) st).2⟩ : Hyp S σ)] = true := by
        simp [allFinished, hypFinished, hend]
      rw [beamSearchRun_of_allFinished _ _ _ _ _ _ hfin]
      simp [truncThroughEnd, hend]
    · have hnotmem2 : endIndex ∉ tokens ++ [j] := by
        intro hc
        rcases List.mem_append.mp hc with hc | hc
        · exact hnotmem hc
        · simp at hc
          exact hend hc.symm
      have hlast : (tokens ++ [j]).getLastD startIndex = j :=
        List.getLastD_concat ..
      have hrec := ih (tokens ++ [j]) (logp + m)
        (takeStep (tokens.getLastD startIndex) st).2 hnotmem2
      rw [hlast] at hrec
      rw [hrec]
      have htr : truncThroughEnd endIndex
          (j :: forwardLoopGreedy takeStep j n
            (takeStep (tokens.getLastD startIndex) st).2)
          = j :: truncThroughEnd endIndex
              (forwardLoopGreedy takeStep j n
                (takeStep (tokens.getLastD startIndex) st).2) := by
        simp [truncThroughEnd, List.takeWhile_cons, hend, Ne.symm hend]
      rw [htr]
      simp

/-- C7 amended: beam search with beam_size = 1 reproduces the greedy
predictions of the training-loop controller run without gold targets UP TO
the first end marker: its single hypothesis carries exactly the greedy
output truncated just past the first occurrence of the end marker (the
whole greedy output when no end marker is emitted within the step
budget).  The step scores must be non-empty (a non-degenerate
vocabulary). -/
theorem beam_width_one_matches_greedy [LinearOrderedAddCommGroup S]
    (takeStep : Nat → σ → List S × σ) (startIndex endIndex maxDecodingSteps : Nat)
    (st : σ) (hne : ∀ tok s, (takeStep tok s).1 ≠ []) :
    (beamSearch takeStep startIndex endIndex 1 maxDecodingSteps st).map
        (fun h => h.tokens)
      = [truncThroughEnd endIndex
          (forwardLoopPredictions takeStep startIndex maxDecodingSteps st)] := by
  have h := beamRun_one_eq_greedy takeStep startIndex endIndex hne
    maxDecodingSteps [] 0 st (by simp)
  simpa [beamSearch, forwardLoopPredictions] using h

/-- A concrete deterministic step function over integer scores and a unit
state: after the end marker 3 the best continuation is token 1, otherwise
it is the end marker 3 itself. -/
def exStep : Nat → Unit → List ℤ × Unit :=
  fun tok _ => (if tok == 3 then [0, 5, 0, 0] else [0, 0, 0, 9], ())

/-- Witness for the amended C7: on `exStep` (start 2, end 3, budget 2)
the single beam hypothesis is [3] and the greedy output [3, 1] truncates
to [3]. -/
theorem beam_width_one_matches_greedy_witness :
    (beamSearch exStep 2 3 1 2 ()).map (fun h => h.tokens)
      = [truncThroughEnd 3 (forwardLoopPredictions exStep 2 2 ())] :=
  beam_width_one_matches_greedy exStep 2 3 2 ()
    (by
      intro tok s
      by_cases h : tok == 3 <;> simp [exStep, h])

/-- Counterexample to C7 as stated: on `exStep` the beam-1 search stops
once its hypothesis has emitted the end marker and returns the ids [3],
while the training-loop controller without gold targets always runs the
full step budget and returns [3, 1]: the output id sequences are not
exactly the same. -/
theorem beam_width_one_exact_match_counterexample :
    (beamSearch exStep 2 3 1 2 ()).map (fun h => h.tokens)
      ≠ [forwardLoopPredictions exStep 2 2 ()] := by
  decide

end BeamGreedy

end Machamp
